import Mathlib

/-!
Verification of the caption-to-overlay synthesis engine of
`process_videos.py` (playphraseme-karaoke-mixer).

The Python source is shallowly embedded: Python `str` values become Lean
`String` (a structure over `List Char`), Python `float` seconds become exact
rationals `ℚ`, fallible code (code that can raise) returns `Option`.
ASCII semantics are used for the character classes of `str.lower`,
`re`'s `\w`, `\d` and `\s` and for `str.split`/`str.strip`
(the inputs of interest are ASCII; exotic Unicode case mappings and
Unicode-only whitespace are outside the model).
-/

/-! ### Python character primitives -/

/-- Whitespace set of Python `str.split()` / `str.strip()` / regex `\s`
(ASCII part): space, tab, newline, carriage return, form feed, vertical tab. -/
def py_isspace (c : Char) : Bool :=
  c == ' ' || c == '\t' || c == '\x0a' || c == '\x0d' || c == '\x0c' || c == '\x0b'

/-- Character class `\w` of Python regexes (ASCII part): digits, upper-case
letters, lower-case letters, underscore. -/
def is_word_char (c : Char) : Bool :=
  decide ((48 ≤ c.toNat ∧ c.toNat ≤ 57) ∨ (65 ≤ c.toNat ∧ c.toNat ≤ 90) ∨
    (97 ≤ c.toNat ∧ c.toNat ≤ 122) ∨ c.toNat = 95)

/-- ASCII case mapping of Python `str.lower`: `A`..`Z` shift by 32, all other
characters unchanged. -/
def py_to_lower (c : Char) : Char :=
  if 65 ≤ c.toNat ∧ c.toNat ≤ 90 then Char.ofNat (c.toNat + 32) else c

theorem char_toNat_ofNat_small (n : Nat) (h : n < 55296) : (Char.ofNat n).toNat = n := by
  have hv : Nat.isValidChar n := Or.inl h
  simp only [Char.ofNat, hv, dif_pos, Char.ofNatAux, Char.toNat]
  rfl

theorem py_to_lower_word_char (c : Char) : is_word_char (py_to_lower c) = is_word_char c := by
  unfold py_to_lower
  by_cases h : 65 ≤ c.toNat ∧ c.toNat ≤ 90
  · rw [if_pos h]
    have ht : (Char.ofNat (c.toNat + 32)).toNat = c.toNat + 32 :=
      char_toNat_ofNat_small _ (by omega)
    unfold is_word_char
    rw [ht]
    simp only [decide_eq_decide]
    omega
  · rw [if_neg h]

theorem py_to_lower_idem (c : Char) : py_to_lower (py_to_lower c) = py_to_lower c := by
  by_cases h : 65 ≤ c.toNat ∧ c.toNat ≤ 90
  · have h1 : py_to_lower c = Char.ofNat (c.toNat + 32) := by rw [py_to_lower, if_pos h]
    have ht : (Char.ofNat (c.toNat + 32)).toNat = c.toNat + 32 :=
      char_toNat_ofNat_small _ (by omega)
    rw [h1]
    rw [py_to_lower, if_neg (by rw [ht]; omega)]
  · have h1 : py_to_lower c = c := by rw [py_to_lower, if_neg h]
    rw [h1, h1]

theorem word_char_not_space (c : Char) (h : is_word_char c = true) : py_isspace c = false := by
  unfold is_word_char at h
  rw [decide_eq_true_eq] at h
  unfold py_isspace
  simp only [Bool.or_eq_false_iff, beq_eq_false_iff_ne, ne_eq]
  refine ⟨⟨⟨⟨⟨?_, ?_⟩, ?_⟩, ?_⟩, ?_⟩, ?_⟩ <;> (intro hc; subst hc; revert h; decide)

/-! ### Word normalizer (`normalize_word`, source line 270-271)

Python: `re.sub(r"[^\w]+", "", w.lower())` — lower-case the string, then
drop every character that is not in `\w`. -/

def normalize_word (w : String) : String :=
  String.mk ((w.data.map py_to_lower).filter is_word_char)

/-- Characters of a normalized word are all word characters. -/
theorem normalize_word_chars (w : String) :
    ∀ c ∈ (normalize_word w).data, is_word_char c = true := by
  intro c hc
  exact List.of_mem_filter hc

theorem normalize_word_filter_first (w : String) :
    normalize_word w = String.mk ((w.data.filter is_word_char).map py_to_lower) := by
  unfold normalize_word
  congr 1
  rw [List.filter_map]
  apply congrArg
  apply List.filter_congr
  intro c _
  simp only [Function.comp_apply]
  exact py_to_lower_word_char c

theorem normalize_word_idem (w : String) :
    normalize_word (normalize_word w) = normalize_word w := by
  unfold normalize_word
  congr 1
  have hlow : ∀ c ∈ (w.data.map py_to_lower).filter is_word_char, py_to_lower c = c := by
    intro c hc
    have hm := List.mem_of_mem_filter hc
    obtain ⟨d, _, rfl⟩ := List.mem_map.mp hm
    exact py_to_lower_idem d
  rw [show ((String.mk ((w.data.map py_to_lower).filter is_word_char)).data) =
      ((w.data.map py_to_lower).filter is_word_char) from rfl]
  rw [List.map_congr_left hlow, List.map_id']
  rw [List.filter_eq_self.mpr (fun a ha => List.of_mem_filter ha)]

/-- C4: `normalize_word` removes every character that is not alphanumeric or
underscore and lower-cases the remaining characters (the source lower-cases
first and then filters; the two orders agree), it is idempotent, and
`normalize_word "Don't!"` equals `normalize_word "dont"` (the quoted input is
written with `Char.ofNat 39` for the apostrophe). -/
theorem normalize_word_spec :
    (∀ w : String, normalize_word w = String.mk ((w.data.filter is_word_char).map py_to_lower)) ∧
    (∀ w : String, normalize_word (normalize_word w) = normalize_word w) ∧
    normalize_word (String.mk ['D', 'o', 'n', Char.ofNat 39, 't', '!']) = normalize_word "dont" :=
  ⟨normalize_word_filter_first, normalize_word_idem, by decide⟩

/-! ### Python `str.split()`, `str.strip()` and `" ".join` -/

/-- Accumulator-based model of Python `str.split()` on a character list:
split on runs of whitespace, dropping empty pieces. `acc` holds the current
word reversed. -/
def py_split_aux : List Char → List Char → List (List Char)
  | [], acc => if acc = [] then [] else [acc.reverse]
  | c :: cs, acc =>
    if py_isspace c then
      if acc = [] then py_split_aux cs [] else acc.reverse :: py_split_aux cs []
    else py_split_aux cs (c :: acc)

/-- Python `str.split()` (no separator argument). -/
def py_split (s : String) : List String :=
  (py_split_aux s.data []).map String.mk

/-- Python `str.strip()` on a character list. -/
def py_strip_chars (l : List Char) : List Char :=
  ((l.dropWhile py_isspace).reverse.dropWhile py_isspace).reverse

/-- Python `str.strip()`. -/
def py_strip (s : String) : String :=
  String.mk (py_strip_chars s.data)

/-- Python `sep.join(parts)` at the character-list level. -/
def py_join_chars (sep : List Char) : List (List Char) → List Char
  | [] => []
  | [w] => w
  | w :: ws => w ++ sep ++ py_join_chars sep ws

/-- Python `" ".join(words)`. -/
def py_join_space (ws : List String) : String :=
  String.mk (py_join_chars [' '] (ws.map String.data))

/-- Python `len(s.split())`: the number of whitespace-separated words of `s`. -/
def word_count (s : String) : Nat :=
  (py_split s).length

/-- A word list is wordlike when every word is a nonempty string of
non-whitespace characters; normalized words are wordlike. -/
def wordlike (w : List Char) : Prop :=
  w ≠ [] ∧ ∀ c ∈ w, py_isspace c = false

theorem py_split_aux_no_space (w : List Char) (hw : ∀ c ∈ w, py_isspace c = false) :
    ∀ rest acc, py_split_aux (w ++ rest) acc = py_split_aux rest (w.reverse ++ acc) := by
  induction w with
  | nil => intro rest acc; simp
  | cons c cs ih =>
    intro rest acc
    have hc : py_isspace c = false := hw c (List.mem_cons_self c cs)
    simp only [List.cons_append, py_split_aux, hc, Bool.false_eq_true, if_false]
    show py_split_aux (cs ++ rest) (c :: acc) = _
    rw [ih (fun d hd => hw d (List.mem_cons_of_mem c hd)) rest (c :: acc)]
    simp

theorem py_split_aux_join (ws : List (List Char)) (h : ∀ w ∈ ws, wordlike w) :
    py_split_aux (py_join_chars [' '] ws) [] = ws := by
  induction ws with
  | nil => rfl
  | cons w ws ih =>
    have hw := h w (List.mem_cons_self w ws)
    cases ws with
    | nil =>
      show py_split_aux w [] = [w]
      have hns := py_split_aux_no_space w hw.2 [] []
      rw [List.append_nil, List.append_nil] at hns
      rw [hns]
      simp only [py_split_aux]
      rw [if_neg (by simp [hw.1]), List.reverse_reverse]
    | cons w2 ws2 =>
      have hrw : py_join_chars [' '] (w :: w2 :: ws2) =
          w ++ (' ' :: py_join_chars [' '] (w2 :: ws2)) := by
        show w ++ [' '] ++ _ = _
        rw [List.append_assoc]
        rfl
      rw [hrw, py_split_aux_no_space w hw.2 _ []]
      simp only [py_split_aux, List.append_nil]
      rw [if_pos (show py_isspace ' ' = true by rfl)]
      rw [if_neg (by simp [hw.1]), List.reverse_reverse]
      rw [ih (fun x hx => h x (List.mem_cons_of_mem w hx))]

theorem py_split_join (ws : List String) (h : ∀ w ∈ ws, wordlike w.data) :
    py_split (py_join_space ws) = ws := by
  unfold py_split py_join_space
  rw [show (String.mk (py_join_chars [' '] (ws.map String.data))).data =
      py_join_chars [' '] (ws.map String.data) from rfl]
  rw [py_split_aux_join _ (by intro w hw; obtain ⟨x, hx, rfl⟩ := List.mem_map.mp hw; exact h x hx)]
  rw [List.map_map]
  apply List.map_id''
  intro s
  rfl

theorem word_count_join (ws : List String) (h : ∀ w ∈ ws, wordlike w.data) :
    word_count (py_join_space ws) = ws.length := by
  rw [word_count, py_split_join ws h]

theorem py_join_space_ne_empty (w : String) (ws : List String) (hw : wordlike w.data) :
    py_join_space (w :: ws) ≠ "" := by
  intro hcon
  have hdata : py_join_chars [' '] ((w :: ws).map String.data) = [] :=
    congrArg String.data hcon
  cases ws with
  | nil =>
    exact hw.1 hdata
  | cons w2 ws2 =>
    simp only [List.map_cons, py_join_chars] at hdata
    have h1 := (List.append_eq_nil.mp hdata).1
    exact hw.1 (List.append_eq_nil.mp h1).1

theorem word_count_empty : word_count "" = 0 := rfl

/-! ### Subsequence containment (`contains_contiguous_subsequence`, lines 285-290) -/

/-- Python `contains_contiguous_subsequence(lst, sub)`: scan every start
index `i` in `range(len(lst) - len(sub) + 1)` and test `lst[i:i+L] == sub`.
Lean's truncated subtraction gives the empty scan exactly when Python's
negative range is empty. -/
def contains_contiguous_subsequence (lst sub : List String) : Bool :=
  (List.range (lst.length + 1 - sub.length)).any
    (fun i => decide ((lst.drop i).take sub.length = sub))

/-- Contiguous occurrence of `sub` in `lst` at start index `i`. -/
def OccursAt (sub lst : List String) (i : Nat) : Prop :=
  i + sub.length ≤ lst.length ∧ (lst.drop i).take sub.length = sub

/-- Contiguous occurrence of `sub` somewhere in `lst`. -/
def OccursIn (sub lst : List String) : Prop :=
  ∃ i, OccursAt sub lst i

theorem slice_length {α : Type} (l : List α) (s n : Nat) (h : s + n ≤ l.length) :
    ((l.drop s).take n).length = n := by
  rw [List.length_take, List.length_drop]
  omega

theorem occursAt_self_slice (l : List String) (s n : Nat) (h : s + n ≤ l.length) :
    OccursAt ((l.drop s).take n) l s := by
  constructor
  · rw [slice_length l s n h]; exact h
  · rw [slice_length l s n h]

theorem contains_iff_occursIn (lst sub : List String) :
    contains_contiguous_subsequence lst sub = true ↔ OccursIn sub lst := by
  unfold contains_contiguous_subsequence OccursIn OccursAt
  rw [List.any_eq_true]
  constructor
  · rintro ⟨i, hi, hp⟩
    rw [List.mem_range] at hi
    rw [decide_eq_true_eq] at hp
    refine ⟨i, ?_, hp⟩
    have := congrArg List.length hp
    rw [List.length_take, List.length_drop] at this
    omega
  · rintro ⟨i, hle, hp⟩
    refine ⟨i, ?_, by rw [decide_eq_true_eq]; exact hp⟩
    rw [List.mem_range]
    have hsub : sub.length ≤ lst.length := by omega
    omega

/-! ### Generic `List.find?` decomposition -/

theorem find_eq_some_split {α : Type} (p : α → Bool) (l : List α) (a : α)
    (h : l.find? p = some a) :
    ∃ l1 l2, l = l1 ++ a :: l2 ∧ p a = true ∧ ∀ b ∈ l1, p b = false := by
  induction l with
  | nil => simp [List.find?] at h
  | cons c cs ih =>
    by_cases hc : p c = true
    · rw [List.find?_cons_of_pos _ hc] at h
      obtain rfl : c = a := by injection h
      exact ⟨[], cs, rfl, hc, by intro b hb; simp at hb⟩
    · rw [List.find?_cons_of_neg _ hc] at h
      obtain ⟨l1, l2, rfl, ha, hall⟩ := ih h
      refine ⟨c :: l1, l2, rfl, ha, ?_⟩
      intro b hb
      rcases List.mem_cons.mp hb with rfl | hb2
      · exact Bool.eq_false_iff.mpr hc
      · exact hall b hb2

/-! ### Candidate enumeration of the full-set search (lines 292-301)

Python: `for length in range(n, 0, -1): for start in range(0, n - length + 1)`. -/

def candidate_pairs (n : Nat) : List (Nat × Nat) :=
  ((List.range n).map (fun i => n - i)).flatMap (fun len =>
    (List.range (n - len + 1)).map (fun start => (len, start)))

/-- Enumeration order of `candidate_pairs`: strictly decreasing length,
then strictly increasing start index. -/
def PairBefore (p q : Nat × Nat) : Prop :=
  q.1 < p.1 ∨ (p.1 = q.1 ∧ p.2 < q.2)

theorem mem_candidate_pairs (n len start : Nat) :
    (len, start) ∈ candidate_pairs n ↔ 1 ≤ len ∧ len ≤ n ∧ start + len ≤ n := by
  unfold candidate_pairs
  rw [List.mem_flatMap]
  constructor
  · rintro ⟨l, hl, hmem⟩
    obtain ⟨i, hi, rfl⟩ := List.mem_map.mp hl
    rw [List.mem_range] at hi
    obtain ⟨st, hst, heq⟩ := List.mem_map.mp hmem
    rw [List.mem_range] at hst
    obtain ⟨rfl, rfl⟩ : n - i = len ∧ st = start := by
      constructor <;> [exact (Prod.mk.injEq _ _ _ _ ▸ heq).1; exact (Prod.mk.injEq _ _ _ _ ▸ heq).2]
    omega
  · rintro ⟨h1, h2, h3⟩
    refine ⟨len, List.mem_map.mpr ⟨n - len, List.mem_range.mpr (by omega), by omega⟩, ?_⟩
    exact List.mem_map.mpr ⟨start, List.mem_range.mpr (by omega), rfl⟩

theorem candidate_pairs_sorted (n : Nat) : (candidate_pairs n).Pairwise PairBefore := by
  unfold candidate_pairs
  rw [List.flatMap_def, List.pairwise_flatten]
  constructor
  · intro l hl
    obtain ⟨l0, hl0, rfl⟩ := List.mem_map.mp hl
    obtain ⟨i, _, rfl⟩ := List.mem_map.mp hl0
    rw [List.pairwise_map]
    apply List.Pairwise.imp ?_ (List.pairwise_lt_range _)
    intro a b hab
    exact Or.inr ⟨rfl, hab⟩
  · rw [List.pairwise_map, List.pairwise_map]
    have hp : (List.range n).Pairwise (fun i j => i < j ∧ j < n) := by
      refine List.Pairwise.imp_of_mem ?_ (List.pairwise_lt_range n)
      intro i j _ hj hij
      exact ⟨hij, List.mem_range.mp hj⟩
    apply List.Pairwise.imp ?_ hp
    rintro i j ⟨hij, hjn⟩ x hx y hy
    obtain ⟨sx, _, rfl⟩ := List.mem_map.mp hx
    obtain ⟨sy, _, rfl⟩ := List.mem_map.mp hy
    exact Or.inl (by omega)

/-! ### Full-set common-phrase search (`common_contiguous_subsequence`, lines 292-301)

Python reads `normalized_lists[0]` unguarded, so the embedding returns
`none` (an `IndexError`) on the empty list; the nonempty case is split out. -/

def common_contiguous_subsequence_ne (first : List String) (rest : List (List String)) : String :=
  match (candidate_pairs first.length).find? (fun p =>
      rest.all (fun other => contains_contiguous_subsequence other ((first.drop p.2).take p.1))) with
  | some p => py_join_space ((first.drop p.2).take p.1)
  | none => ""

def common_contiguous_subsequence : List (List String) → Option String
  | [] => none
  | first :: rest => some (common_contiguous_subsequence_ne first rest)

/-- A nonempty contiguous slice of `first` (start index and length) that
occurs contiguously in every other sequence. -/
def IsCommonSlice (first : List String) (rest : List (List String)) (len start : Nat) : Prop :=
  1 ≤ len ∧ start + len ≤ first.length ∧
    ∀ other ∈ rest, OccursIn ((first.drop start).take len) other

theorem common_slice_mem_pairs (first : List String) (rest : List (List String))
    (l s : Nat) (h : IsCommonSlice first rest l s) : (l, s) ∈ candidate_pairs first.length :=
  (mem_candidate_pairs _ _ _).mpr ⟨h.1, by have := h.2.1; omega, h.2.1⟩

theorem common_slice_pred (first : List String) (rest : List (List String)) (l s : Nat) :
    (rest.all (fun other =>
        contains_contiguous_subsequence other ((first.drop s).take l))) = true ↔
      ∀ other ∈ rest, OccursIn ((first.drop s).take l) other := by
  rw [List.all_eq_true]
  constructor
  · intro hall other ho
    exact (contains_iff_occursIn other _).mp (hall other ho)
  · intro hall other ho
    exact (contains_iff_occursIn other _).mpr (hall other ho)

theorem pairBefore_asymm (p q : Nat × Nat) (h1 : PairBefore p q) (h2 : PairBefore q p) : False := by
  rcases h1 with h1 | ⟨h1a, h1b⟩ <;> rcases h2 with h2 | ⟨h2a, h2b⟩ <;> omega

theorem mem_left_of_before {L l1 l2 : List (Nat × Nat)} {p q : Nat × Nat}
    (hL : L.Pairwise PairBefore) (hsplit : L = l1 ++ p :: l2) (hq : q ∈ L)
    (hbefore : PairBefore q p) : q ∈ l1 := by
  subst hsplit
  rcases List.mem_append.mp hq with h | h
  · exact h
  · rcases List.mem_cons.mp h with rfl | h2
    · exact absurd hbefore (fun hb => pairBefore_asymm q q hb hb)
    · exfalso
      have hsub : (p :: l2).Pairwise PairBefore :=
        List.Pairwise.sublist (List.sublist_append_right l1 (p :: l2)) hL
      have hpq : PairBefore p q := (List.pairwise_cons.mp hsub).1 q h2
      exact pairBefore_asymm q p hbefore hpq

/-- C1: for a nonempty family of normalized word sequences that has at least
one common nonempty contiguous slice, the full-set search returns exactly the
common slice of the first sequence with maximal length and, at that length,
minimal start index — the slices being examined in order of decreasing length
and, within a length, increasing start index (`candidate_pairs_sorted`). -/
theorem common_contiguous_subsequence_longest_leftmost (first : List String)
    (rest : List (List String))
    (hex : ∃ len start, IsCommonSlice first rest len start) :
    ∃ len start, IsCommonSlice first rest len start ∧
      (∀ len' start', IsCommonSlice first rest len' start' → len' ≤ len) ∧
      (∀ start', IsCommonSlice first rest len start' → start ≤ start') ∧
      common_contiguous_subsequence (first :: rest) =
        some (py_join_space ((first.drop start).take len)) := by
  set pred := fun p : Nat × Nat =>
    rest.all (fun other => contains_contiguous_subsequence other ((first.drop p.2).take p.1))
    with hpred
  obtain ⟨l0, s0, h0⟩ := hex
  have hfind : ∃ p, (candidate_pairs first.length).find? pred = some p := by
    cases hf : (candidate_pairs first.length).find? pred with
    | some p => exact ⟨p, rfl⟩
    | none =>
      exfalso
      have hnone := List.find?_eq_none.mp hf (l0, s0) (common_slice_mem_pairs _ _ _ _ h0)
      exact hnone ((common_slice_pred first rest l0 s0).mpr h0.2.2)
  obtain ⟨p, hp⟩ := hfind
  obtain ⟨l1, l2, hsplit, hpa, hall⟩ := find_eq_some_split pred _ p hp
  have hpmem : p ∈ candidate_pairs first.length := by
    rw [hsplit]
    exact List.mem_append_right l1 (List.mem_cons_self p l2)
  have hpbounds := (mem_candidate_pairs first.length p.1 p.2).mp (by
    have : ((p.1 : Nat), (p.2 : Nat)) = p := rfl
    rw [this]; exact hpmem)
  have hpcommon : IsCommonSlice first rest p.1 p.2 :=
    ⟨hpbounds.1, hpbounds.2.2, (common_slice_pred first rest p.1 p.2).mp hpa⟩
  have hnotbefore : ∀ l' s', IsCommonSlice first rest l' s' → ¬ PairBefore (l', s') p := by
    intro l' s' h' hb
    have hmem := common_slice_mem_pairs _ _ _ _ h'
    have hin1 : ((l', s') : Nat × Nat) ∈ l1 :=
      mem_left_of_before (candidate_pairs_sorted first.length) hsplit hmem hb
    have := hall _ hin1
    rw [hpred] at this
    exact absurd this (by
      rw [Bool.eq_false_iff]
      intro hfalse
      exact hfalse ((common_slice_pred first rest l' s').mpr h'.2.2))
  refine ⟨p.1, p.2, hpcommon, ?_, ?_, ?_⟩
  · intro l' s' h'
    by_contra hgt
    exact hnotbefore l' s' h' (Or.inl (by omega))
  · intro s' h'
    by_contra hlt
    exact hnotbefore p.1 s' h' (Or.inr ⟨rfl, by omega⟩)
  · show some (common_contiguous_subsequence_ne first rest) = _
    unfold common_contiguous_subsequence_ne
    rw [← hpred, hp]

theorem common_contiguous_subsequence_longest_leftmost_witness :
    ∃ len start,
      IsCommonSlice ["see", "you", "later"] [["you", "later", "today"]] len start ∧
      (∀ len' start',
        IsCommonSlice ["see", "you", "later"] [["you", "later", "today"]] len' start' →
          len' ≤ len) ∧
      (∀ start',
        IsCommonSlice ["see", "you", "later"] [["you", "later", "today"]] len start' →
          start ≤ start') ∧
      common_contiguous_subsequence [["see", "you", "later"], ["you", "later", "today"]] =
        some (py_join_space ((["see", "you", "later"].drop start).take len)) :=
  common_contiguous_subsequence_longest_leftmost _ _
    ⟨2, 1, by decide, by decide, by
      intro other ho
      rw [List.mem_singleton] at ho
      subst ho
      exact ⟨0, by decide, by decide⟩⟩

/-! ### Subsequence locator (`find_subsequence_indices`, lines 273-283) -/

/-- Python `find_subsequence_indices(phrase_words, highlite_words)`: guard
against either list being empty, then scan start indices left to right and
return `list(range(start, start + L))` for the first full match, or `[]`. -/
def find_subsequence_indices (phrase_words highlite_words : List String) : List Nat :=
  if highlite_words = [] ∨ phrase_words = [] then []
  else
    match (List.range (phrase_words.length + 1 - highlite_words.length)).find?
        (fun start => decide ((phrase_words.drop start).take highlite_words.length
          = highlite_words)) with
    | some start => (List.range highlite_words.length).map (fun j => start + j)
    | none => []

theorem find_range_first (K : Nat) (p : Nat → Bool) (i : Nat)
    (h : (List.range K).find? p = some i) :
    i < K ∧ p i = true ∧ ∀ j < i, p j = false := by
  obtain ⟨l1, l2, hsplit, hpa, hall⟩ := find_eq_some_split p _ i h
  have hlenK : l1.length + 1 + l2.length = K := by
    have := congrArg List.length hsplit
    simp only [List.length_range, List.length_append, List.length_cons] at this
    omega
  have hi : i = l1.length := by
    have h1 : (List.range K)[l1.length]? = some l1.length :=
      List.getElem?_range (by omega)
    rw [hsplit, List.getElem?_append_right (Nat.le_refl _), Nat.sub_self] at h1
    simp only [List.getElem?_cons_zero] at h1
    exact Option.some.injEq _ _ ▸ h1
  have h3 : List.take l1.length (List.range K) = l1 := by
    rw [hsplit]
    exact List.take_left l1 (i :: l2)
  have hl1 : ∀ j ∈ l1, j < l1.length := by
    intro j hj
    rw [← h3, List.take_range, inf_eq_left.mpr (by omega), List.mem_range] at hj
    exact hj
  refine ⟨by omega, hpa, ?_⟩
  intro j hj
  apply hall
  rw [← h3, List.take_range, inf_eq_left.mpr (by omega), List.mem_range]
  omega

theorem occursAt_of_slice_eq (phrase_words highlite_words : List String) (s : Nat)
    (hs : s < phrase_words.length + 1 - highlite_words.length)
    (h : (phrase_words.drop s).take highlite_words.length = highlite_words) :
    OccursAt highlite_words phrase_words s :=
  ⟨by omega, h⟩

/-- C3: the subsequence locator returns the index span of the leftmost
contiguous occurrence of `highlite_words` in `phrase_words`, and the empty
list whenever either list is empty or no occurrence exists; in particular on
haystack `[a,b,a,b]` and needle `[a,b]` the span starts at 0. -/
theorem find_subsequence_indices_leftmost (phrase_words highlite_words : List String) :
    (highlite_words = [] ∨ phrase_words = [] →
      find_subsequence_indices phrase_words highlite_words = []) ∧
    (¬ OccursIn highlite_words phrase_words →
      find_subsequence_indices phrase_words highlite_words = []) ∧
    (∀ i, highlite_words ≠ [] → OccursAt highlite_words phrase_words i →
      (∀ j, OccursAt highlite_words phrase_words j → i ≤ j) →
      find_subsequence_indices phrase_words highlite_words =
        (List.range highlite_words.length).map (fun j => i + j)) ∧
    find_subsequence_indices ["a", "b", "a", "b"] ["a", "b"] = [0, 1] := by
  refine ⟨?_, ?_, ?_, by decide⟩
  · intro h
    rw [find_subsequence_indices, if_pos h]
  · intro hno
    unfold find_subsequence_indices
    by_cases hemp : highlite_words = [] ∨ phrase_words = []
    · rw [if_pos hemp]
    · rw [if_neg hemp]
      cases hf : (List.range (phrase_words.length + 1 - highlite_words.length)).find?
          (fun start => decide ((phrase_words.drop start).take highlite_words.length
            = highlite_words)) with
      | none => rfl
      | some start =>
        exfalso
        have hfirst := find_range_first _ _ _ hf
        rw [decide_eq_true_eq] at hfirst
        exact hno ⟨start, occursAt_of_slice_eq _ _ _ hfirst.1 hfirst.2.1⟩
  · intro i hne hocc hmin
    have hN : i + highlite_words.length ≤ phrase_words.length := hocc.1
    have hL : 1 ≤ highlite_words.length := List.length_pos.mpr hne
    have hnemp : ¬ (highlite_words = [] ∨ phrase_words = []) := by
      rintro (h | h)
      · exact hne h
      · rw [h] at hN
        simp only [List.length_nil, Nat.le_zero] at hN
        omega
    rw [find_subsequence_indices, if_neg hnemp]
    cases hf : (List.range (phrase_words.length + 1 - highlite_words.length)).find?
        (fun start => decide ((phrase_words.drop start).take highlite_words.length
          = highlite_words)) with
    | none =>
      exfalso
      have := List.find?_eq_none.mp hf i (List.mem_range.mpr (by omega))
      rw [decide_eq_true_eq] at this
      exact this hocc.2
    | some start =>
      have hfirst := find_range_first _ _ _ hf
      rw [decide_eq_true_eq] at hfirst
      have hocc2 : OccursAt highlite_words phrase_words start :=
        occursAt_of_slice_eq _ _ _ hfirst.1 hfirst.2.1
      have hge : i ≤ start := hmin start hocc2
      have hle : start ≤ i := by
        by_contra hlt
        have := hfirst.2.2 i (by omega)
        rw [decide_eq_false_iff_not] at this
        exact this hocc.2
      obtain rfl : start = i := by omega
      rfl

theorem find_subsequence_indices_leftmost_witness :
    find_subsequence_indices ["a", "b", "a", "b"] ["a", "b"] =
      (List.range (["a", "b"] : List String).length).map (fun j => 0 + j) :=
  (find_subsequence_indices_leftmost ["a", "b", "a", "b"] ["a", "b"]).2.2.1 0
    (by decide) ⟨by decide, by decide⟩ (fun j _ => Nat.zero_le j)

/-! ### Highlight-phrase computation (`calculate_highlight_phrase`, lines 303-330) -/

/-- Python `itertools.combinations(l, r)`: all length-`r` selections of
elements of `l`, enumerated in lexicographic order over original positions. -/
def combinations {α : Type} : Nat → List α → List (List α)
  | 0, _ => [[]]
  | _ + 1, [] => []
  | r + 1, x :: xs => ((combinations r xs).map (x :: ·)) ++ combinations (r + 1) xs

/-- Word sequence of one phrase (line 308): split on whitespace, normalize
each token, keep only tokens whose normal form is nonempty. -/
def phrase_words (p : String) : List String :=
  ((py_split p).map normalize_word).filter (fun w => decide (w ≠ ""))

/-- Lines 306-310: the word sequences of all phrases, dropping phrases whose
word sequence is empty. -/
def normalize_phrases (phrases : List String) : List (List String) :=
  (phrases.map phrase_words).filter (fun ws => decide (ws ≠ []))

/-- Loop body of lines 321-325 over one list of subsets, threading the best
candidate so far and propagating the possible `IndexError` of
`common_contiguous_subsequence`: a new candidate replaces the best exactly
when it is nonempty and has strictly more words. -/
def best_over_aux : String → List (List (List String)) → Option String
  | best, [] => some best
  | best, subset :: rest =>
    match common_contiguous_subsequence subset with
    | none => none
    | some candidate =>
      best_over_aux
        (if candidate ≠ "" ∧ word_count candidate > word_count best then candidate else best)
        rest

/-- Python loop `for r in range(total - 1, 1, -1)` with its early return
(lines 320-328), recursing from the given size down to 2. -/
def subset_search (nps : List (List String)) : Nat → Option String
  | r + 2 =>
    match best_over_aux "" (combinations (r + 2) nps) with
    | none => none
    | some best => if best = "" then subset_search nps (r + 1) else some best
  | _ => some ""

/-- Python `calculate_highlight_phrase` (lines 303-330), with the local
variable `normalized_phrases` inlined; `none` models an uncaught exception
(`calculate_highlight_phrase_total` shows it is never produced). -/
def calculate_highlight_phrase (phrases : List String) : Option String :=
  if phrases = [] then some ""
  else if normalize_phrases phrases = [] then some ""
  else if (normalize_phrases phrases).length = 1 then
    some (py_join_space ((normalize_phrases phrases).headD []))
  else
    match common_contiguous_subsequence (normalize_phrases phrases) with
    | none => none
    | some candidate =>
      if candidate ≠ "" then some candidate
      else subset_search (normalize_phrases phrases) ((normalize_phrases phrases).length - 1)

/-- Results of the full-set search over every size-`r` combination, read with
`""` for the impossible empty-subset case. -/
def size_candidates (nps : List (List String)) (r : Nat) : List String :=
  (combinations r nps).map (fun s => (common_contiguous_subsequence s).getD "")

/-- Pure form of the best-candidate fold of lines 321-325. -/
def best_fold : String → List String → String
  | best, [] => best
  | best, c :: rest =>
    best_fold (if c ≠ "" ∧ word_count c > word_count best then c else best) rest

theorem combinations_length {α : Type} :
    ∀ (l : List α) (r : Nat) (s : List α), s ∈ combinations r l → s.length = r := by
  intro l
  induction l with
  | nil =>
    intro r s hs
    cases r with
    | zero =>
      rw [show combinations 0 ([] : List α) = [[]] from rfl, List.mem_singleton] at hs
      subst hs; rfl
    | succ r => simp [combinations] at hs
  | cons x xs ih =>
    intro r s hs
    cases r with
    | zero =>
      rw [show combinations 0 (x :: xs) = [[]] from rfl, List.mem_singleton] at hs
      subst hs; rfl
    | succ r =>
      rw [show combinations (r + 1) (x :: xs) =
        ((combinations r xs).map (x :: ·)) ++ combinations (r + 1) xs from rfl] at hs
      rcases List.mem_append.mp hs with h | h
      · obtain ⟨t, ht, rfl⟩ := List.mem_map.mp h
        simp [ih r t ht]
      · exact ih (r + 1) s h

theorem combinations_mem {α : Type} :
    ∀ (l : List α) (r : Nat) (s : List α), s ∈ combinations r l → ∀ x ∈ s, x ∈ l := by
  intro l
  induction l with
  | nil =>
    intro r s hs x hx
    cases r with
    | zero =>
      rw [show combinations 0 ([] : List α) = [[]] from rfl, List.mem_singleton] at hs
      subst hs; simp at hx
    | succ r => simp [combinations] at hs
  | cons a as ih =>
    intro r s hs x hx
    cases r with
    | zero =>
      rw [show combinations 0 (a :: as) = [[]] from rfl, List.mem_singleton] at hs
      subst hs; simp at hx
    | succ r =>
      rw [show combinations (r + 1) (a :: as) =
        ((combinations r as).map (a :: ·)) ++ combinations (r + 1) as from rfl] at hs
      rcases List.mem_append.mp hs with h | h
      · obtain ⟨t, ht, rfl⟩ := List.mem_map.mp h
        rcases List.mem_cons.mp hx with rfl | hx2
        · exact List.mem_cons_self _ _
        · exact List.mem_cons_of_mem a (ih r t ht x hx2)
      · exact List.mem_cons_of_mem a (ih (r + 1) s h x hx)

theorem phrase_words_wordlike (p : String) : ∀ w ∈ phrase_words p, wordlike w.data := by
  intro w hw
  have hne : w ≠ "" := by
    have := List.of_mem_filter hw
    rwa [decide_eq_true_eq] at this
  have hmem := List.mem_of_mem_filter hw
  obtain ⟨v, _, rfl⟩ := List.mem_map.mp hmem
  constructor
  · intro hdata
    exact hne (String.ext hdata)
  · intro c hc
    exact word_char_not_space c (normalize_word_chars v c hc)

theorem normalize_phrases_wordlike (phrases : List String) :
    ∀ ws ∈ normalize_phrases phrases, ∀ w ∈ ws, wordlike w.data := by
  intro ws hws w hw
  have hmem := List.mem_of_mem_filter hws
  obtain ⟨p, _, rfl⟩ := List.mem_map.mp hmem
  exact phrase_words_wordlike p w hw

theorem slice_wordlike (first : List String) (hgood : ∀ w ∈ first, wordlike w.data)
    (len start : Nat) : ∀ w ∈ (first.drop start).take len, wordlike w.data :=
  fun w hw => hgood w (List.mem_of_mem_drop (List.mem_of_mem_take hw))

/-- Shape of a full-set search result on a nonempty family: either empty, or
the join of a nonempty slice of the first sequence. -/
theorem ccs_ne_shape (first : List String) (rest : List (List String)) :
    common_contiguous_subsequence_ne first rest = "" ∨
    ∃ len start, 1 ≤ len ∧ start + len ≤ first.length ∧
      common_contiguous_subsequence_ne first rest =
        py_join_space ((first.drop start).take len) := by
  unfold common_contiguous_subsequence_ne
  cases hf : (candidate_pairs first.length).find? (fun p =>
      rest.all (fun other =>
        contains_contiguous_subsequence other ((first.drop p.2).take p.1))) with
  | none => exact Or.inl rfl
  | some p =>
    right
    have hmem : p ∈ candidate_pairs first.length := List.mem_of_find?_eq_some hf
    have hb := (mem_candidate_pairs first.length p.1 p.2).mp hmem
    exact ⟨p.1, p.2, hb.1, hb.2.2, rfl⟩

/-- Word count and nonemptiness of a joined wordlike slice. -/
theorem join_slice_facts (ws : List String) (hws : ∀ w ∈ ws, wordlike w.data)
    (hne : ws ≠ []) : py_join_space ws ≠ "" ∧ word_count (py_join_space ws) = ws.length := by
  constructor
  · cases ws with
    | nil => exact absurd rfl hne
    | cons w ws2 => exact py_join_space_ne_empty w ws2 (hws w (List.mem_cons_self w ws2))
  · exact word_count_join ws hws

/-- On wordlike input every candidate of the subset search is either empty or
has at least one word. -/
theorem size_candidate_good (nps : List (List String))
    (hgood : ∀ ws ∈ nps, ∀ w ∈ ws, wordlike w.data) (r : Nat) :
    ∀ c ∈ size_candidates nps r, c ≠ "" → 1 ≤ word_count c := by
  intro c hc hne
  obtain ⟨s, hs, rfl⟩ := List.mem_map.mp hc
  cases s with
  | nil => exact absurd rfl hne
  | cons first rest =>
    rw [show (common_contiguous_subsequence (first :: rest)).getD "" =
      common_contiguous_subsequence_ne first rest from rfl] at hne ⊢
    rcases ccs_ne_shape first rest with h | ⟨len, start, h1, h2, h3⟩
    · exact absurd h hne
    · rw [h3]
      have hfirstmem : ∀ w ∈ first, wordlike w.data := by
        intro w hw
        exact hgood first (combinations_mem nps r _ hs first (List.mem_cons_self _ _)) w hw
      have hslice := slice_wordlike first hfirstmem len start
      have hslicene : (first.drop start).take len ≠ [] := by
        intro hnil
        have := congrArg List.length hnil
        rw [slice_length first start len h2] at this
        simp at this
        omega
      have := (join_slice_facts _ hslice hslicene).2
      rw [this, slice_length first start len h2]
      omega

/-- First-maximum characterization of the best-candidate fold: either nothing
beats the initial value, or the fold returns the first candidate attaining
the maximal word count, which is nonempty and beats the initial value. -/
theorem best_fold_spec (l : List String) :
    ∀ b, (∀ c ∈ l, c ≠ "" → 1 ≤ word_count c) →
    (best_fold b l = b ∧ ∀ c ∈ l, word_count c ≤ word_count b) ∨
    (∃ l1 c l2, l = l1 ++ c :: l2 ∧ best_fold b l = c ∧ c ≠ "" ∧
      word_count b < word_count c ∧ (∀ d ∈ l1, word_count d < word_count c) ∧
      (∀ d ∈ l2, word_count d ≤ word_count c)) := by
  induction l with
  | nil => intro b _; exact Or.inl ⟨rfl, by simp⟩
  | cons c rest ih =>
    intro b hgood
    have hrest : ∀ d ∈ rest, d ≠ "" → 1 ≤ word_count d :=
      fun d hd => hgood d (List.mem_cons_of_mem c hd)
    by_cases hc : c ≠ "" ∧ word_count c > word_count b
    · have heq : best_fold b (c :: rest) = best_fold c rest := by
        show best_fold (if c ≠ "" ∧ word_count c > word_count b then c else b) rest = _
        rw [if_pos hc]
      rcases ih c hrest with ⟨hfb, hall⟩ | ⟨l1, c', l2, hsp, hfb, hne, hlt, hbefore, hafter⟩
      · exact Or.inr ⟨[], c, rest, rfl, heq.trans hfb, hc.1, hc.2, by simp, hall⟩
      · refine Or.inr ⟨c :: l1, c', l2, by rw [hsp, List.cons_append], heq.trans hfb, hne, by omega, ?_, hafter⟩
        intro d hd
        rcases List.mem_cons.mp hd with rfl | hd2
        · exact hlt
        · exact hbefore d hd2
    · have heq : best_fold b (c :: rest) = best_fold b rest := by
        show best_fold (if c ≠ "" ∧ word_count c > word_count b then c else b) rest = _
        rw [if_neg hc]
      have hcb : word_count c ≤ word_count b := by
        by_cases hce : c = ""
        · subst hce
          rw [word_count_empty]
          exact Nat.zero_le _
        · rw [not_and_or] at hc
          rcases hc with h | h
          · exact absurd hce (by simpa using h)
          · omega
      rcases ih b hrest with ⟨hfb, hall⟩ | ⟨l1, c', l2, hsp, hfb, hne, hlt, hbefore, hafter⟩
      · refine Or.inl ⟨heq.trans hfb, ?_⟩
        intro d hd
        rcases List.mem_cons.mp hd with rfl | hd2
        · exact hcb
        · exact hall d hd2
      · refine Or.inr ⟨c :: l1, c', l2, by rw [hsp, List.cons_append], heq.trans hfb, hne, hlt, ?_, hafter⟩
        intro d hd
        rcases List.mem_cons.mp hd with rfl | hd2
        · omega
        · exact hbefore d hd2

theorem best_fold_all_empty (l : List String) (h : ∀ c ∈ l, c = "") :
    ∀ b, best_fold b l = b := by
  induction l with
  | nil => intro b; rfl
  | cons c rest ih =>
    intro b
    have hc : c = "" := h c (List.mem_cons_self c rest)
    show best_fold (if c ≠ "" ∧ word_count c > word_count b then c else b) rest = b
    rw [if_neg (by subst hc; simp)]
    exact ih (fun d hd => h d (List.mem_cons_of_mem c hd)) b

theorem best_fold_empty_iff (l : List String) (hgood : ∀ c ∈ l, c ≠ "" → 1 ≤ word_count c)
    (h : best_fold "" l = "") : ∀ c ∈ l, c = "" := by
  rcases best_fold_spec l "" hgood with ⟨_, hall⟩ | ⟨l1, c', l2, _, hfb, hne, _, _, _⟩
  · intro c hc
    by_contra hcne
    have h1 := hgood c hc hcne
    have h2 := hall c hc
    rw [word_count_empty] at h2
    omega
  · rw [h] at hfb
    exact absurd hfb.symm hne

theorem best_over_aux_eq (subsets : List (List (List String)))
    (h : ∀ s ∈ subsets, s ≠ []) :
    ∀ best, best_over_aux best subsets =
      some (best_fold best
        (subsets.map (fun s => (common_contiguous_subsequence s).getD ""))) := by
  induction subsets with
  | nil => intro best; rfl
  | cons s rest ih =>
    intro best
    cases hs : s with
    | nil => exact absurd hs (h s (List.mem_cons_self s rest))
    | cons first tail =>
      show best_over_aux
          (if common_contiguous_subsequence_ne first tail ≠ "" ∧
              word_count (common_contiguous_subsequence_ne first tail) > word_count best
            then common_contiguous_subsequence_ne first tail else best) rest = _
      rw [ih (fun t ht => h t (List.mem_cons_of_mem s ht))]
      rfl

theorem combinations_ne_nil (nps : List (List String)) (r : Nat) (hr : 1 ≤ r) :
    ∀ s ∈ combinations r nps, s ≠ [] := by
  intro s hs hnil
  have := combinations_length nps r s hs
  rw [hnil] at this
  simp at this
  omega

theorem subset_search_spec (nps : List (List String))
    (hgood : ∀ ws ∈ nps, ∀ w ∈ ws, wordlike w.data) :
    ∀ k, ∃ res, subset_search nps k = some res ∧
      ((∀ r, 2 ≤ r → r ≤ k → ∀ c ∈ size_candidates nps r, c = "") → res = "") ∧
      (∀ r, 2 ≤ r → r ≤ k →
        (∃ c ∈ size_candidates nps r, c ≠ "") →
        (∀ r', r < r' → r' ≤ k → ∀ c ∈ size_candidates nps r', c = "") →
        res ∈ size_candidates nps r ∧ res ≠ "" ∧
        (∀ c ∈ size_candidates nps r, word_count c ≤ word_count res) ∧
        ∃ l1 l2, size_candidates nps r = l1 ++ res :: l2 ∧
          ∀ c ∈ l1, word_count c < word_count res) := by
  intro k
  induction k with
  | zero =>
    refine ⟨"", rfl, fun _ => rfl, ?_⟩
    intro r h2 h0
    exact absurd h0 (by omega)
  | succ k ih =>
    cases k with
    | zero =>
      refine ⟨"", rfl, fun _ => rfl, ?_⟩
      intro r h2 h1
      exact absurd h1 (by omega)
    | succ k0 =>
      have hgoodc := size_candidate_good nps hgood (k0 + 2)
      have hb2 : best_over_aux "" (combinations (k0 + 2) nps) =
          some (best_fold "" (size_candidates nps (k0 + 2))) :=
        best_over_aux_eq _ (combinations_ne_nil nps (k0 + 2) (by omega)) ""
      have hstep : subset_search nps (k0 + 2) =
          (if best_fold "" (size_candidates nps (k0 + 2)) = ""
            then subset_search nps (k0 + 1)
            else some (best_fold "" (size_candidates nps (k0 + 2)))) := by
        show (match best_over_aux "" (combinations (k0 + 2) nps) with
          | none => none
          | some best => if best = "" then subset_search nps (k0 + 1) else some best) = _
        rw [hb2]
      by_cases hb : best_fold "" (size_candidates nps (k0 + 2)) = ""
      · have hallemp : ∀ c ∈ size_candidates nps (k0 + 2), c = "" :=
          best_fold_empty_iff _ hgoodc hb
        obtain ⟨res, hres, ih2, ih3⟩ := ih
        refine ⟨res, by rw [hstep, if_pos hb]; exact hres, ?_, ?_⟩
        · intro hyp
          exact ih2 (fun r hr2 hrk => hyp r hr2 (by omega))
        · intro r hr2 hrk hnonemp hlarger
          by_cases hrtop : r = k0 + 2
          · exfalso
            obtain ⟨c, hcmem, hcne⟩ := hnonemp
            exact hcne (hallemp c (hrtop ▸ hcmem))
          · exact ih3 r hr2 (by omega) hnonemp
              (fun r' hr'1 hr'2 => hlarger r' hr'1 (by omega))
      · refine ⟨best_fold "" (size_candidates nps (k0 + 2)),
          by rw [hstep, if_neg hb], ?_, ?_⟩
        · intro hyp
          exact absurd (best_fold_all_empty _ (hyp (k0 + 2) (by omega) (by omega)) "") hb
        · intro r hr2 hrk hnonemp hlarger
          by_cases hrtop : r = k0 + 2
          · subst hrtop
            rcases best_fold_spec (size_candidates nps (k0 + 2)) "" hgoodc with
              ⟨hfb, _⟩ | ⟨l1, c', l2, hsp, hfb, hne, _, hbefore, hafter⟩
            · exact absurd hfb hb
            · rw [hfb]
              refine ⟨by rw [hsp]; exact List.mem_append_right l1 (List.mem_cons_self c' l2),
                hne, ?_, l1, l2, hsp, hbefore⟩
              intro d hd
              rw [hsp] at hd
              rcases List.mem_append.mp hd with hd1 | hd1
              · exact Nat.le_of_lt (hbefore d hd1)
              · rcases List.mem_cons.mp hd1 with rfl | hd2
                · exact Nat.le_refl _
                · exact hafter d hd2
          · exfalso
            have hempty := hlarger (k0 + 2) (by omega) (by omega)
            exact hb (best_fold_all_empty _ hempty "")

/-- C2: when the full-set search over all normalized phrases finds nothing
(`some ""`) and there are at least three normalized phrases,
`calculate_highlight_phrase` behaves as the subset fallback: with
`total` the number of normalized phrases, if every size `r` with
`2 ≤ r ≤ total - 1` yields only empty candidates the result is `""`; and for
the largest such size `r` that yields a nonempty candidate, the result is a
candidate of size `r` (so larger subset sizes take priority), it has the
greatest word count among the size-`r` candidates — computed over all
`r`-combinations in their stable enumeration order — and it is the first
candidate in that order attaining this count (ties go to the earlier
combination). -/
theorem calculate_highlight_phrase_subset_fallback (phrases : List String)
    (h3 : 3 ≤ (normalize_phrases phrases).length)
    (hfull : common_contiguous_subsequence (normalize_phrases phrases) = some "") :
    ∃ res, calculate_highlight_phrase phrases = some res ∧
      ((∀ r, 2 ≤ r → r + 1 ≤ (normalize_phrases phrases).length →
         ∀ c ∈ size_candidates (normalize_phrases phrases) r, c = "") → res = "") ∧
      (∀ r, 2 ≤ r → r + 1 ≤ (normalize_phrases phrases).length →
        (∃ c ∈ size_candidates (normalize_phrases phrases) r, c ≠ "") →
        (∀ r', r < r' → r' + 1 ≤ (normalize_phrases phrases).length →
          ∀ c ∈ size_candidates (normalize_phrases phrases) r', c = "") →
        res ∈ size_candidates (normalize_phrases phrases) r ∧ res ≠ "" ∧
        (∀ c ∈ size_candidates (normalize_phrases phrases) r,
          word_count c ≤ word_count res) ∧
        ∃ l1 l2, size_candidates (normalize_phrases phrases) r = l1 ++ res :: l2 ∧
          ∀ c ∈ l1, word_count c < word_count res) := by
  have hpne : phrases ≠ [] := by
    intro h
    rw [h] at h3
    simp [normalize_phrases] at h3
  have hnne : normalize_phrases phrases ≠ [] := by
    intro h
    rw [h] at h3
    simp at h3
  have hlen1 : ¬ ((normalize_phrases phrases).length = 1) := by omega
  have hcal : calculate_highlight_phrase phrases =
      subset_search (normalize_phrases phrases) ((normalize_phrases phrases).length - 1) := by
    rw [calculate_highlight_phrase, if_neg hpne, if_neg hnne, if_neg hlen1, hfull]
    rfl
  obtain ⟨res, hres, h1, h2⟩ := subset_search_spec (normalize_phrases phrases)
    (normalize_phrases_wordlike phrases) ((normalize_phrases phrases).length - 1)
  refine ⟨res, hcal ▸ hres, ?_, ?_⟩
  · intro hyp
    exact h1 (fun r hr2 hrk => hyp r hr2 (by omega))
  · intro r hr2 hrk hnem hlarger
    exact h2 r hr2 (by omega) hnem (fun r' ha hbb => hlarger r' ha (by omega))

theorem calculate_highlight_phrase_subset_fallback_witness :
    ∃ res, calculate_highlight_phrase ["a b", "b c", "d"] = some res ∧ res ≠ "" := by
  obtain ⟨res, hres, _, hc3⟩ :=
    calculate_highlight_phrase_subset_fallback ["a b", "b c", "d"] (by decide) (by decide)
  have hstep := hc3 2 (by omega) (by decide) ⟨"b", by decide, by decide⟩
    (by
      intro r' ha hb
      rw [show (normalize_phrases ["a b", "b c", "d"]).length = 3 from by decide] at hb
      exact absurd hb (by omega))
  exact ⟨res, hres, hstep.2.1⟩

/-- C10: the highlight-phrase computation is total and never reaches the
unguarded head access of the full-set search: on every phrase list it returns
a string (never the exception value `none`), and it returns `""` when the
list is empty or when every phrase normalizes to the empty word sequence. -/
theorem calculate_highlight_phrase_total (phrases : List String) :
    (∃ s, calculate_highlight_phrase phrases = some s) ∧
    (phrases = [] → calculate_highlight_phrase phrases = some "") ∧
    ((∀ p ∈ phrases, phrase_words p = []) → calculate_highlight_phrase phrases = some "") := by
  refine ⟨?_, ?_, ?_⟩
  · by_cases h1 : phrases = []
    · exact ⟨"", by rw [calculate_highlight_phrase, if_pos h1]⟩
    · by_cases h2 : normalize_phrases phrases = []
      · exact ⟨"", by rw [calculate_highlight_phrase, if_neg h1, if_pos h2]⟩
      · by_cases h3 : (normalize_phrases phrases).length = 1
        · exact ⟨_, by rw [calculate_highlight_phrase, if_neg h1, if_neg h2, if_pos h3]⟩
        · obtain ⟨first, rest, hsplit⟩ : ∃ first rest,
              normalize_phrases phrases = first :: rest := by
            cases hc : normalize_phrases phrases with
            | nil => exact absurd hc h2
            | cons a b => exact ⟨a, b, rfl⟩
          have hccs : common_contiguous_subsequence (normalize_phrases phrases) =
              some (common_contiguous_subsequence_ne first rest) := by
            rw [hsplit]
            rfl
          by_cases hce : common_contiguous_subsequence_ne first rest = ""
          · obtain ⟨res, hres, _, _⟩ := subset_search_spec (normalize_phrases phrases)
              (normalize_phrases_wordlike phrases) ((normalize_phrases phrases).length - 1)
            refine ⟨res, ?_⟩
            rw [calculate_highlight_phrase, if_neg h1, if_neg h2, if_neg h3, hccs, hce]
            simpa using hres
          · refine ⟨common_contiguous_subsequence_ne first rest, ?_⟩
            rw [calculate_highlight_phrase, if_neg h1, if_neg h2, if_neg h3, hccs]
            simp [hce]
  · intro h1
    rw [calculate_highlight_phrase, if_pos h1]
  · intro hall
    by_cases h1 : phrases = []
    · rw [calculate_highlight_phrase, if_pos h1]
    · have h2 : normalize_phrases phrases = [] := by
        rw [normalize_phrases, List.filter_eq_nil_iff]
        intro ws hws
        obtain ⟨p, hp, rfl⟩ := List.mem_map.mp hws
        rw [hall p hp]
        decide
      rw [calculate_highlight_phrase, if_neg h1, if_pos h2]

theorem calculate_highlight_phrase_total_witness :
    calculate_highlight_phrase ["!!!", "???"] = some "" :=
  (calculate_highlight_phrase_total ["!!!", "???"]).2.2 (by decide)

/-! ### Timebase (`seconds_to_ass_time`, lines 264-268)

Python: `h = int(seconds // 3600); m = int((seconds % 3600) // 60);
s = seconds % 60; return f"{h}:{m:02d}:{s:05.2f}"`.
Seconds are modelled as exact rationals `q = n / d ≥ 0`; the integer
arithmetic below is the exact value of the float operations:
`int(q // 3600) = n / (3600 d)`, `int((q % 3600) // 60) = (n % (3600 d)) / (60 d)`,
and `%.2f` rounds `q % 60 = (n % (60 d)) / d` to centiseconds half-to-even,
printing the result `SS.cc` zero-padded to width 5 (negative seconds are
outside the model). -/

/-- Round-half-even of the fraction `a / b` (`b > 0`): the rounding of
Python's float formatting. -/
def rhe_div (a b : Nat) : Nat :=
  if 2 * (a % b) < b then a / b
  else if b < 2 * (a % b) then a / b + 1
  else if a / b % 2 = 0 then a / b else a / b + 1

/-- Zero-padded two-digit rendering (`%02d`, and either side of the dot of
`%05.2f` for values below 100). -/
def pad2_chars (n : Nat) : List Char :=
  if n < 10 then '0' :: (Nat.repr n).data else (Nat.repr n).data

def seconds_to_ass_time (seconds : ℚ) : String :=
  String.mk ((Nat.repr (seconds.num.toNat / (3600 * seconds.den))).data
    ++ ':' :: pad2_chars ((seconds.num.toNat % (3600 * seconds.den)) / (60 * seconds.den))
    ++ ':' :: pad2_chars (rhe_div (100 * (seconds.num.toNat % (60 * seconds.den))) seconds.den / 100)
    ++ '.' :: pad2_chars (rhe_div (100 * (seconds.num.toNat % (60 * seconds.den))) seconds.den % 100))

/-- Timestamp shape claimed by the spec: hours via `Nat.repr` (no leading
zero), colon, two-digit field, colon, seconds field, dot, centiseconds. -/
def render_timestamp (h m s c : Nat) : String :=
  String.mk ((Nat.repr h).data ++ ':' :: pad2_chars m ++ ':' :: pad2_chars s
    ++ '.' :: pad2_chars c)

theorem pad2_chars_length : ∀ n < 100, (pad2_chars n).length = 2 := by decide

theorem append_take_eq {α : Type} (l1 l2 r : List α) (n : Nat) (hn : l1.length = n)
    (h : l1 ++ l2 = r) : l1 = r.take n := by
  subst hn
  rw [← h, List.take_left]

theorem append_drop_eq {α : Type} (l1 l2 r : List α) (n : Nat) (hn : l1.length = n)
    (h : l1 ++ l2 = r) : l2 = r.drop n := by
  subst hn
  rw [← h, List.drop_left]

theorem rhe_div_le (a b K : Nat) (hb : 0 < b) (h : a < K * b) : rhe_div a b ≤ K := by
  have hdiv : a / b < K := (Nat.div_lt_iff_lt_mul hb).mpr h
  unfold rhe_div
  split
  · omega
  · split
    · omega
    · split <;> omega

/-- C5 counterexample: at 59.999 seconds the formatter rounds the seconds
field up to a full minute and prints `0:00:60.00`, so the output's two-digit
seconds field is not strictly below 60 as the claim states. -/
theorem seconds_to_ass_time_claim_counterexample :
    seconds_to_ass_time (mkRat 59999 1000) = "0:00:60.00" ∧
    ¬ ∃ h m s c : Nat, m ≤ 59 ∧ s ≤ 59 ∧ c ≤ 99 ∧
      seconds_to_ass_time (mkRat 59999 1000) = render_timestamp h m s c := by
  have hfirst : seconds_to_ass_time (mkRat 59999 1000) = "0:00:60.00" := by decide
  refine ⟨hfirst, ?_⟩
  rintro ⟨h, m, s, c, hm, hs, hc, heq⟩
  rw [hfirst] at heq
  have hdata : (Nat.repr h).data ++ ':' :: pad2_chars m ++ ':' :: pad2_chars s
      ++ '.' :: pad2_chars c = "0:00:60.00".data := congrArg String.data heq.symm
  have hlm : (pad2_chars m).length = 2 := pad2_chars_length m (by omega)
  have hls : (pad2_chars s).length = 2 := pad2_chars_length s (by omega)
  have hlc : (pad2_chars c).length = 2 := pad2_chars_length c (by omega)
  have hlh : (Nat.repr h).data.length = 1 := by
    have hlen := congrArg List.length hdata
    rw [show ("0:00:60.00".data).length = 10 from by decide] at hlen
    simp only [List.length_append, List.length_cons, hlm, hls, hlc] at hlen
    omega
  have hregroup : ((Nat.repr h).data ++ ':' :: pad2_chars m ++ [':'])
      ++ (pad2_chars s ++ '.' :: pad2_chars c) = "0:00:60.00".data := by
    rw [← hdata]
    simp [List.append_assoc]
  have hlen5 : ((Nat.repr h).data ++ ':' :: pad2_chars m ++ [':']).length = 5 := by
    simp only [List.length_append, List.length_cons, List.length_singleton, hlh, hlm]
    decide
  have hdrop := append_drop_eq _ _ _ 5 hlen5 hregroup
  rw [show List.drop 5 "0:00:60.00".data = ['6', '0', '.', '0', '0'] from by decide] at hdrop
  have htake := append_take_eq _ _ _ 2 hls hdrop
  rw [show List.take 2 ['6', '0', '.', '0', '0'] = ['6', '0'] from by decide] at htake
  have hbad : ∀ t < 60, pad2_chars t ≠ ['6', '0'] := by decide
  exact hbad s (by omega) htake

/-- C5 (amended): for every nonnegative seconds value the formatter output
has the exact shape `H:MM:SS.cc` — hours with no leading zero, two-digit
minutes below 60, two-digit seconds field, a dot, two centisecond digits —
where the seconds field is at most 60 (not strictly below 60): it shows 60,
with centiseconds 00, exactly when the seconds-within-minute round up to a
full minute at centisecond precision. -/
theorem seconds_to_ass_time_format (q : ℚ) (_hq : 0 ≤ q) :
    ∃ h m s c : Nat, m ≤ 59 ∧ s ≤ 60 ∧ c ≤ 99 ∧ (s = 60 → c = 0) ∧
      seconds_to_ass_time q = render_timestamp h m s c := by
  have hD : 0 < q.den := Nat.pos_of_ne_zero q.den_nz
  have hm : (q.num.toNat % (3600 * q.den)) / (60 * q.den) ≤ 59 := by
    have hmod : q.num.toNat % (3600 * q.den) < 3600 * q.den :=
      Nat.mod_lt _ (by omega)
    have := (Nat.div_lt_iff_lt_mul (show 0 < 60 * q.den by omega)).mpr
      (show q.num.toNat % (3600 * q.den) < 60 * (60 * q.den) by omega)
    omega
  have hcc : rhe_div (100 * (q.num.toNat % (60 * q.den))) q.den ≤ 6000 := by
    apply rhe_div_le _ _ _ hD
    have hmod : q.num.toNat % (60 * q.den) < 60 * q.den := Nat.mod_lt _ (by omega)
    omega
  refine ⟨q.num.toNat / (3600 * q.den),
    (q.num.toNat % (3600 * q.den)) / (60 * q.den),
    rhe_div (100 * (q.num.toNat % (60 * q.den))) q.den / 100,
    rhe_div (100 * (q.num.toNat % (60 * q.den))) q.den % 100,
    hm, by omega, by omega, by omega, rfl⟩

theorem seconds_to_ass_time_format_witness :
    ∃ h m s c : Nat, m ≤ 59 ∧ s ≤ 60 ∧ c ≤ 99 ∧ (s = 60 → c = 0) ∧
      seconds_to_ass_time (mkRat 7 2) = render_timestamp h m s c :=
  seconds_to_ass_time_format (mkRat 7 2) (by decide)

/-! ### Subtitle document events (`generate_ass_subtitles`, lines 332-427)

The parts the claims are about are embedded: the overall timing window
(lines 334-341) and the `[Events]` section (lines 394-424) as a structured
list of dialogue events (layer, start, end, style name, text); the style
table and header (lines 343-393) carry no claim. The spec's Watermark event
is the source's `Website` style. -/

structure Cue where
  start : ℚ
  endTime : ℚ
  text : String
  highlight : String
deriving DecidableEq

structure AssEvent where
  layer : Nat
  startTime : String
  endTime : String
  style : String
  text : String
deriving DecidableEq

def PHRASE_COLOR : String := "white"

def PHRASE_HIGHLITE_COLOR : String := "yellow"

def WEBSITE_TEXT : String := "playphrase.me"

/-- Python `str.lower` on a whole string. -/
def py_lower (s : String) : String :=
  String.mk (s.data.map py_to_lower)

/-- Color table `convert_color` (lines 250-262): name to `&HAABBGGRR` code,
defaulting to opaque white. -/
def convert_color (color_name : String) : String :=
  if py_lower color_name = "white" then "&H00FFFFFF"
  else if py_lower color_name = "black" then "&H00000000"
  else if py_lower color_name = "yellow" then "&H0031D1FD"
  else if py_lower color_name = "red" then "&H000000FF"
  else if py_lower color_name = "green" then "&H0000FF00"
  else if py_lower color_name = "blue" then "&H00FF0000"
  else if py_lower color_name = "cyan" then "&H00FFFF00"
  else if py_lower color_name = "gray" then "&H00AAAAAA"
  else if py_lower color_name = "transparent" then "&HFF000000"
  else "&H00FFFFFF"

/-- Overall timing window (lines 334-339): `[cues[0].start, cues[-1].end]`,
or `[0, 5]` when no cues exist. -/
def total_window (cues : List Cue) : ℚ × ℚ :=
  match cues with
  | [] => (0, 5)
  | c :: rest => (c.start, (rest.getLastD c).endTime)

/-- Base dialogue text (lines 398-405): each word at a highlight index is
wrapped in the highlight color override and a reset to the base color. -/
def base_line_text (words_original : List String) (highlight_indices : List Nat) : String :=
  py_join_space (words_original.enum.map (fun p =>
    if p.1 ∈ highlight_indices then
      "\x7b\\c" ++ convert_color PHRASE_HIGHLITE_COLOR ++ "\x7d" ++ p.2
        ++ "\x7b\\c" ++ convert_color PHRASE_COLOR ++ "\x7d"
    else p.2))

/-- Karaoke dialogue text for cue index `i` (lines 414-420): word `i` is
rendered opaque (`\alpha&H00&`), every other word fully transparent
(`\alpha&HFF&`). -/
def karaoke_line_text (words_original : List String) (i : Nat) : String :=
  py_join_space (words_original.enum.map (fun p =>
    if p.1 = i then "\x7b\\alpha&H00&\x7d" ++ p.2 ++ "\x7b\\alpha&HFF&\x7d"
    else "\x7b\\alpha&HFF&\x7d" ++ p.2))

/-- Ordered `[Events]` section of `generate_ass_subtitles` (lines 394-424):
one Base event, `min(len(cues), len(words))` karaoke events (cue `i` is read
with `getD`; the index is always in range), a Translation event when the
stripped translation is nonempty, and the Website event. -/
def generate_ass_events (cues : List Cue) (phrase translation highlite_phrase : String) :
    List AssEvent :=
  let start_time_ass := seconds_to_ass_time (total_window cues).1
  let end_time_ass := seconds_to_ass_time (total_window cues).2
  let words_original := py_split phrase
  let words_normalized := words_original.map normalize_word
  let highlite_words_normalized :=
    ((py_split highlite_phrase).filter (fun w => decide (py_strip w ≠ ""))).map normalize_word
  let highlight_indices :=
    if highlite_words_normalized = [] then []
    else find_subsequence_indices words_normalized highlite_words_normalized
  [AssEvent.mk 0 start_time_ass end_time_ass "Base"
      (base_line_text words_original highlight_indices)]
  ++ (List.range (min cues.length words_original.length)).map (fun i =>
      AssEvent.mk 1 (seconds_to_ass_time ((cues.getD i (Cue.mk 0 0 "" "")).start))
        (seconds_to_ass_time ((cues.getD i (Cue.mk 0 0 "" "")).endTime)) "Highlight"
        (karaoke_line_text words_original i))
  ++ (if py_strip translation = "" then []
      else [AssEvent.mk 0 start_time_ass end_time_ass "Translation"
        ("\x7b\\q3\x7d" ++ translation)])
  ++ [AssEvent.mk 2 start_time_ass end_time_ass "Website" WEBSITE_TEXT]

/-- C6: built from an empty cue list, the timing window is `[0, 5]` seconds
and the document still carries exactly one Base event and one Watermark
(Website) event, a Translation event exactly when the stripped translation
is nonempty, and zero karaoke events; every emitted event spans the whole
`[0, 5]` window. -/
theorem generate_ass_events_empty_cues (phrase translation highlite_phrase : String) :
    total_window [] = (0, 5) ∧
    (generate_ass_events [] phrase translation highlite_phrase).countP
      (fun e => e.style == "Base") = 1 ∧
    (generate_ass_events [] phrase translation highlite_phrase).countP
      (fun e => e.style == "Highlight") = 0 ∧
    (generate_ass_events [] phrase translation highlite_phrase).countP
      (fun e => e.style == "Website") = 1 ∧
    (generate_ass_events [] phrase translation highlite_phrase).countP
      (fun e => e.style == "Translation") = (if py_strip translation = "" then 0 else 1) ∧
    ∀ e ∈ generate_ass_events [] phrase translation highlite_phrase,
      e.startTime = seconds_to_ass_time 0 ∧ e.endTime = seconds_to_ass_time 5 := by
  have hev : generate_ass_events [] phrase translation highlite_phrase =
      AssEvent.mk 0 (seconds_to_ass_time 0) (seconds_to_ass_time 5) "Base"
        (base_line_text (py_split phrase)
          (if ((py_split highlite_phrase).filter
              (fun w => decide (py_strip w ≠ ""))).map normalize_word = [] then []
           else find_subsequence_indices ((py_split phrase).map normalize_word)
             (((py_split highlite_phrase).filter
               (fun w => decide (py_strip w ≠ ""))).map normalize_word)))
      :: ((if py_strip translation = "" then []
          else [AssEvent.mk 0 (seconds_to_ass_time 0) (seconds_to_ass_time 5) "Translation"
            ("\x7b\\q3\x7d" ++ translation)])
        ++ [AssEvent.mk 2 (seconds_to_ass_time 0) (seconds_to_ass_time 5) "Website"
            WEBSITE_TEXT]) := by
    simp only [generate_ass_events, total_window, List.length_nil, Nat.zero_min,
      List.range_zero, List.map_nil, List.nil_append, List.singleton_append,
      List.append_nil, List.cons_append]
  have hall : ∀ e ∈ generate_ass_events [] phrase translation highlite_phrase,
      e.startTime = seconds_to_ass_time 0 ∧ e.endTime = seconds_to_ass_time 5 := by
    intro e he
    rw [hev] at he
    rcases List.mem_cons.mp he with rfl | he2
    · exact ⟨rfl, rfl⟩
    rcases List.mem_append.mp he2 with he3 | he3
    · by_cases ht : py_strip translation = ""
      · rw [if_pos ht] at he3
        simp at he3
      · rw [if_neg ht] at he3
        rw [List.mem_singleton] at he3
        subst he3
        exact ⟨rfl, rfl⟩
    · rw [List.mem_singleton] at he3
      subst he3
      exact ⟨rfl, rfl⟩
  refine ⟨rfl, ?_, ?_, ?_, ?_, hall⟩ <;>
    by_cases ht : py_strip translation = "" <;>
    simp [hev, ht, List.countP_cons, List.countP_append]

theorem generate_ass_events_empty_cues_witness :
    (generate_ass_events [] "hello" "world" "").countP (fun e => e.style == "Base") = 1 ∧
    (AssEvent.mk 2 (seconds_to_ass_time 0) (seconds_to_ass_time 5) "Website"
      "playphrase.me").startTime = seconds_to_ass_time 0 := by
  have h := generate_ass_events_empty_cues "hello" "world" ""
  exact ⟨h.2.1, (h.2.2.2.2.2 _ (by decide)).1⟩

theorem generate_ass_events_karaoke_filter (cues : List Cue)
    (phrase translation highlite_phrase : String) :
    (generate_ass_events cues phrase translation highlite_phrase).filter
      (fun e => e.style == "Highlight") =
    (List.range (min cues.length (py_split phrase).length)).map (fun i =>
      AssEvent.mk 1 (seconds_to_ass_time ((cues.getD i (Cue.mk 0 0 "" "")).start))
        (seconds_to_ass_time ((cues.getD i (Cue.mk 0 0 "" "")).endTime)) "Highlight"
        (karaoke_line_text (py_split phrase) i)) := by
  by_cases ht : py_strip translation = "" <;>
    simp [generate_ass_events, ht, List.filter_append, List.filter_map,
      Function.comp_def, List.filter_eq_self]

/-- C7: the document builder emits exactly `min(len(cues), len(phrase
words))` karaoke (Highlight) events, and the `i`-th of them has layer 1,
spans the `i`-th cue's start and end times, and renders word `i` of the
phrase at full opacity (`\alpha&H00&`) and every other word at zero opacity
(`\alpha&HFF&`) — keyed purely by position. -/
theorem generate_ass_events_karaoke_per_cue (cues : List Cue)
    (phrase translation highlite_phrase : String) :
    ((generate_ass_events cues phrase translation highlite_phrase).filter
      (fun e => e.style == "Highlight")).length =
        min cues.length (py_split phrase).length ∧
    ∀ i, i < min cues.length (py_split phrase).length →
      ((generate_ass_events cues phrase translation highlite_phrase).filter
        (fun e => e.style == "Highlight")).getD i (AssEvent.mk 0 "" "" "" "") =
      AssEvent.mk 1 (seconds_to_ass_time ((cues.getD i (Cue.mk 0 0 "" "")).start))
        (seconds_to_ass_time ((cues.getD i (Cue.mk 0 0 "" "")).endTime)) "Highlight"
        (py_join_space ((py_split phrase).enum.map (fun p =>
          if p.1 = i then "\x7b\\alpha&H00&\x7d" ++ p.2 ++ "\x7b\\alpha&HFF&\x7d"
          else "\x7b\\alpha&HFF&\x7d" ++ p.2))) := by
  rw [generate_ass_events_karaoke_filter cues phrase translation highlite_phrase]
  constructor
  · rw [List.length_map, List.length_range]
  · intro i hi
    have hlt : i < ((List.range (min cues.length (py_split phrase).length)).map (fun i =>
        AssEvent.mk 1 (seconds_to_ass_time ((cues.getD i (Cue.mk 0 0 "" "")).start))
          (seconds_to_ass_time ((cues.getD i (Cue.mk 0 0 "" "")).endTime)) "Highlight"
          (karaoke_line_text (py_split phrase) i))).length := by
      rw [List.length_map, List.length_range]
      exact hi
    rw [List.getD_eq_getElem _ _ hlt, List.getElem_map, List.getElem_range]
    rfl

theorem generate_ass_events_karaoke_per_cue_witness :
    ((generate_ass_events [Cue.mk 0 1 "" "", Cue.mk 1 2 "" ""] "Hello world" "" "").filter
      (fun e => e.style == "Highlight")).getD 1 (AssEvent.mk 0 "" "" "" "") =
    AssEvent.mk 1
      (seconds_to_ass_time (([Cue.mk 0 1 "" "", Cue.mk 1 2 "" ""].getD 1
        (Cue.mk 0 0 "" "")).start))
      (seconds_to_ass_time (([Cue.mk 0 1 "" "", Cue.mk 1 2 "" ""].getD 1
        (Cue.mk 0 0 "" "")).endTime)) "Highlight"
      (py_join_space ((py_split "Hello world").enum.map (fun p =>
        if p.1 = 1 then "\x7b\\alpha&H00&\x7d" ++ p.2 ++ "\x7b\\alpha&HFF&\x7d"
        else "\x7b\\alpha&HFF&\x7d" ++ p.2))) :=
  (generate_ass_events_karaoke_per_cue [Cue.mk 0 1 "" "", Cue.mk 1 2 "" ""]
    "Hello world" "" "").2 1 (by decide)

/-! ### SRT parsing (`parse_srt` lines 195-220, `srt_time_to_seconds` lines 190-193)

The regex operations of the source are realized directly:
`re.split(r"\n\s*\n", ...)` (split on a newline, a greedy whitespace run,
and a final newline, leftmost matches first), `str.splitlines()` (on
`\r\n`, `\r`, `\n`; exotic Unicode boundaries are outside the model),
`re.match(r"(\d+:\d+:\d+,\d+)\s*-->\s*(\d+:\d+:\d+,\d+)", ...)` as a
deterministic scanner (every `\d+`/`\s*` is followed by a character outside
its class, so greedy matching needs no backtracking), and
`re.findall(r"<u>(.*?)</u>", ...)[0]` as the leftmost `<u>` with the nearest
following `</u>` and no newline between. -/

/-- Python `str.splitlines()` on a character list; `acc` holds the current
line reversed. -/
def py_splitlines_aux : List Char → List Char → List (List Char)
  | [], acc => if acc.isEmpty then [] else [acc.reverse]
  | '\x0d' :: '\x0a' :: cs, acc => acc.reverse :: py_splitlines_aux cs []
  | '\x0a' :: cs, acc => acc.reverse :: py_splitlines_aux cs []
  | '\x0d' :: cs, acc => acc.reverse :: py_splitlines_aux cs []
  | c :: cs, acc => py_splitlines_aux cs (c :: acc)

def py_splitlines (l : List Char) : List (List Char) :=
  py_splitlines_aux l []

/-- Length of the separator match of `re.split(r"\n\s*\n", ...)` starting at
the head of `l`, when there is one: the head must be a newline, and the match
extends to the last newline of the maximal whitespace run, which must sit at
relative index at least 1. -/
def sep_match_len (l : List Char) : Option Nat :=
  match l with
  | [] => none
  | c :: _ =>
    if c = '\x0a' then
      match (l.takeWhile py_isspace).reverse.findIdx? (fun d => d == '\x0a') with
      | some j =>
        if 1 ≤ (l.takeWhile py_isspace).length - 1 - j then
          some ((l.takeWhile py_isspace).length - j)
        else none
      | none => none
    else none

/-- Scanner of `re.split(r"\n\s*\n", ...)`: emit the current piece at each
leftmost separator match and resume after it. The fuel starts at the length
of the list and each step consumes at least one character, so the fuel-zero
fallback is unreachable. -/
def split_blank_aux : Nat → List Char → List Char → List (List Char)
  | _, [], acc => [acc.reverse]
  | 0, l, acc => [acc.reverse ++ l]
  | fuel + 1, c :: cs, acc =>
    match sep_match_len (c :: cs) with
    | some k => acc.reverse :: split_blank_aux fuel ((c :: cs).drop k) []
    | none => split_blank_aux fuel cs (c :: acc)

def py_split_blank (l : List Char) : List (List Char) :=
  split_blank_aux l.length l []

/-- Python `\d` (ASCII part). -/
def take_digits (l : List Char) : List Char × List Char :=
  (l.takeWhile Char.isDigit, l.dropWhile Char.isDigit)

/-- One `\d+:\d+:\d+,\d+` timecode group at the start of the input, returning
the four digit groups and the rest of the input. -/
def parse_timecode (l : List Char) :
    Option ((List Char × List Char × List Char × List Char) × List Char) :=
  match take_digits l with
  | (h, r1) =>
    if h = [] then none else
    match r1 with
    | ':' :: r2 =>
      match take_digits r2 with
      | (m, r3) =>
        if m = [] then none else
        match r3 with
        | ':' :: r4 =>
          match take_digits r4 with
          | (s, r5) =>
            if s = [] then none else
            match r5 with
            | ',' :: r6 =>
              match take_digits r6 with
              | (ms, r7) => if ms = [] then none else some ((h, m, s, ms), r7)
            | _ => none
        | _ => none
    | _ => none

/-- `re.match` of the full time line pattern (line 212): two timecodes around
`-->` with optional whitespace; only a prefix match is required. -/
def parse_time_line (l : List Char) :
    Option ((List Char × List Char × List Char × List Char)
      × (List Char × List Char × List Char × List Char)) :=
  match parse_timecode l with
  | none => none
  | some (g1, r) =>
    match r.dropWhile py_isspace with
    | '-' :: '-' :: '>' :: r2 =>
      match parse_timecode (r2.dropWhile py_isspace) with
      | none => none
      | some (g2, _) => some (g1, g2)
    | _ => none

/-- Python `int()` on a digit string. -/
def digits_to_nat (l : List Char) : Nat :=
  l.foldl (fun acc c => 10 * acc + (c.toNat - 48)) 0

/-- `srt_time_to_seconds` (lines 190-193) on the matched digit groups:
`int(h)*3600 + int(m)*60 + int(s) + int(ms)/1000.0`, as the exact rational
`(3600000 h + 60000 m + 1000 s + ms) / 1000`. -/
def srt_time_to_seconds (g : List Char × List Char × List Char × List Char) : ℚ :=
  mkRat (3600000 * digits_to_nat g.1 + 60000 * digits_to_nat g.2.1
    + 1000 * digits_to_nat g.2.2.1 + digits_to_nat g.2.2.2) 1000

/-- Scanner for the body of `<u>(.*?)</u>` after an opening tag: collect
characters up to the nearest `</u>`, failing at a newline (`.` does not match
newlines) or at the end of the input. -/
def u_closing_scan : List Char → Option (List Char)
  | [] => none
  | c :: cs =>
    if (c :: cs).take 4 = ['<', '/', 'u', '>'] then some []
    else if c = '\x0a' then none
    else (u_closing_scan cs).map (c :: ·)

/-- First match of `re.findall(r"<u>(.*?)</u>", text)`: the leftmost `<u>`
that is followed by a closing `</u>`. -/
def extractU : List Char → Option (List Char)
  | [] => none
  | c :: cs =>
    if (c :: cs).take 3 = ['<', 'u', '>'] then
      match u_closing_scan (cs.drop 2) with
      | some content => some content
      | none => extractU cs
    else extractU cs

/-- One block of `parse_srt` (lines 207-218): at least three lines, the
second line must match the time pattern, and the joined text lines must
contain an inline `<u>...</u>` highlight; otherwise the block yields no cue. -/
def parse_block (part : List Char) : Option Cue :=
  if 3 ≤ (py_splitlines (py_strip_chars part)).length then
    match parse_time_line ((py_splitlines (py_strip_chars part)).getD 1 []) with
    | some (g1, g2) =>
      match extractU (py_join_chars [' '] ((py_splitlines (py_strip_chars part)).drop 2)) with
      | some hl => some (Cue.mk (srt_time_to_seconds g1) (srt_time_to_seconds g2)
          (String.mk (py_join_chars [' '] ((py_splitlines (py_strip_chars part)).drop 2)))
          (String.mk hl))
      | none => none
    | none => none
  else none

/-- Python `parse_srt` (lines 195-220) on the text of the SRT file: strip,
return no cues on empty content, split into blank-line-separated blocks and
keep the cues of the blocks that parse. -/
def parse_srt (content : String) : List Cue :=
  if py_strip_chars content.data = [] then []
  else (py_split_blank (py_strip_chars content.data)).filterMap parse_block

/-- A block's matched timecode pair (if any) is ordered. -/
def block_times_ok (part : List Char) : Bool :=
  match parse_time_line ((py_splitlines (py_strip_chars part)).getD 1 []) with
  | some (g1, g2) => decide (srt_time_to_seconds g1 ≤ srt_time_to_seconds g2)
  | none => true

/-- C8 counterexample: `parse_srt` performs no ordering validation, so a
caption blob whose timecode line runs backwards produces a Cue violating
`start ≤ end`. -/
theorem parse_srt_claim_counterexample :
    ∃ cue ∈ parse_srt "1\n0:00:10,000 --> 0:00:05,000\n<u>hi</u>",
      cue.endTime < cue.start := by decide

/-- C8 (amended): parsing copies the two parsed timecode values into the cue
without enforcing an order, so every produced Cue satisfies `start ≤ end`
exactly when the retained blocks' timecode pairs are ordered: for every blob
whose blocks all have ordered timecode pairs, every parsed cue satisfies
`start ≤ end`. -/
theorem parse_srt_start_le_end_of_wellformed (content : String)
    (h : ∀ part ∈ py_split_blank (py_strip_chars content.data), block_times_ok part = true) :
    ∀ cue ∈ parse_srt content, cue.start ≤ cue.endTime := by
  intro cue hcue
  rw [parse_srt] at hcue
  by_cases hemp : py_strip_chars content.data = []
  · rw [if_pos hemp] at hcue
    simp at hcue
  · rw [if_neg hemp] at hcue
    obtain ⟨part, hpart, hp⟩ := List.mem_filterMap.mp hcue
    have hok := h part hpart
    rw [parse_block] at hp
    by_cases h3 : 3 ≤ (py_splitlines (py_strip_chars part)).length
    · rw [if_pos h3] at hp
      cases hpt : parse_time_line ((py_splitlines (py_strip_chars part)).getD 1 []) with
      | none =>
        rw [hpt] at hp
        simp at hp
      | some g12 =>
        obtain ⟨g1, g2⟩ := g12
        rw [hpt] at hp
        cases hex : extractU (py_join_chars [' ']
            ((py_splitlines (py_strip_chars part)).drop 2)) with
        | none =>
          rw [hex] at hp
          simp at hp
        | some hl =>
          rw [hex] at hp
          simp only [Option.some.injEq] at hp
          rw [block_times_ok, hpt, decide_eq_true_eq] at hok
          rw [← hp]
          exact hok
    · rw [if_neg h3] at hp
      simp at hp

theorem parse_srt_start_le_end_of_wellformed_witness :
    ((parse_srt "1\n0:00:01,000 --> 0:00:02,000\n<u>hi</u>").getD 0 (Cue.mk 0 0 "" "")).start ≤
      ((parse_srt "1\n0:00:01,000 --> 0:00:02,000\n<u>hi</u>").getD 0 (Cue.mk 0 0 "" "")).endTime :=
  parse_srt_start_le_end_of_wellformed "1\n0:00:01,000 --> 0:00:02,000\n<u>hi</u>"
    (by decide) _ (by decide)

/-! ### Auto-fit sizer (spec section 4.5) -/

/-- Modelled from the spec: the repository source under `src/` contains no
auto-fit sizer (`fitSize`); only the spec (section 4.5) describes it.
This loop follows the spec's words: reduce a scale factor `k` from 1.0
downward in fixed steps (0.05 here; the spec fixes no value) until the
measured line counts for phrase and translation are both at most 2 or `k`
reaches the floor 0.1 — the 18 steps from 1.0 land exactly on 0.1. -/
def fit_scale_from (fits : ℚ → Bool) : ℚ → Nat → ℚ
  | k, 0 => k
  | k, n + 1 => if fits k then k else fit_scale_from fits (k - 5 / 100) n

/-- Round-half-even of a nonnegative rational, Python `round()` on sizes. -/
def py_round_nonneg (q : ℚ) : ℤ :=
  (rhe_div q.num.toNat q.den : ℤ)

/-- Modelled from the spec: measurement-driven `fitSize` path — scale the
base size by the found factor, round, and floor at the minimum absolute size
10pt regardless of `k`. -/
def fit_size_measured (measurePhrase measureTranslation : ℚ → ℕ) (baseSize : ℚ) : ℤ :=
  max 10 (py_round_nonneg (baseSize *
    fit_scale_from (fun k => decide (measurePhrase k ≤ 2) && decide (measureTranslation k ≤ 2))
      1 18))

/-- Modelled from the spec: analytic fallback of `fitSize` when no
measurement capability is available — estimate text width as character count
times a fixed average width (0.5 em here), solve each text's largest size
fitting 2.5 times the available width, take the smaller of the phrase-driven
and translation-driven sizes, and floor at 10pt. -/
def fit_size_fallback (phraseLen translationLen : ℕ) (baseSize maxWidthPx : ℚ) : ℤ :=
  let sizePhrase : ℚ :=
    if phraseLen = 0 then baseSize else (5 / 2) * maxWidthPx / (phraseLen * (1 / 2))
  let sizeTranslation : ℚ :=
    if translationLen = 0 then baseSize
    else (5 / 2) * maxWidthPx / (translationLen * (1 / 2))
  max 10 (py_round_nonneg (min sizePhrase sizeTranslation))

/-- C9: on both paths the auto-fit sizer never returns a size below the
configured 10pt floor, whatever the measurement capability, text lengths,
base size, and maximum width (including a one-character-wide budget). -/
theorem fit_size_floor (measurePhrase measureTranslation : ℚ → ℕ)
    (phraseLen translationLen : ℕ) (baseSize maxWidthPx : ℚ) :
    10 ≤ fit_size_measured measurePhrase measureTranslation baseSize ∧
    10 ≤ fit_size_fallback phraseLen translationLen baseSize maxWidthPx :=
  ⟨le_max_left 10 _, le_max_left 10 _⟩
